import Mathlib

/-!
Verification of the dynamic-programming and tabular Q-learning notebooks.

Two programs are embedded:

* `TabularQLearning` — the complete learner class of the Q-learning
  notebook (`__init__`, `plan`, `on_episode_start`, `on_step_taken`,
  `on_episode_end`).  Python floats are idealised as real numbers; the
  standard-normal draw of `np.random.randn` is passed to `plan` as an
  explicit input vector `z`.
* the policy-evaluation / policy-improvement / policy-iteration functions
  of the car-rental notebook, embedded over exact rationals.  The loop
  and termination structure is taken from the notebook source; the bodies
  of the marked exercise cells are filled in from the specification and
  each such definition says so in its doc comment.
-/

/-- Maximum of a list, the model of `np.max` on a one-dimensional array:
the value every element is `≤` and that occurs in the list.  `np.max`
raises on an empty array; the `[]` case returns the junk value `0`. -/
def listMax {α : Type} [LinearOrder α] [Zero α] : List α → α
  | [] => 0
  | [x] => x
  | x :: y :: ys => max x (listMax (y :: ys))

/-- Index of the first occurrence of the maximum of a list, the model of
`np.argmax` on a one-dimensional array ("in case of multiple occurrences
of the maximum values, the indices corresponding to the first occurrence
are returned").  `np.argmax` raises on an empty array; the `[]` case
returns the junk index `0`. -/
def argmaxFirst {α : Type} [LinearOrder α] [Zero α] : List α → ℕ
  | [] => 0
  | x :: xs => if listMax (x :: xs) ≤ x then 0 else argmaxFirst xs + 1

/-- A transition observed by the learner, the `Transition` record the RL
loop hands to `on_step_taken`. -/
structure Transition where
  state : ℕ
  action : ℕ
  reward : ℝ
  next_state : ℕ
  is_terminal : Bool

/-- The state of the `TabularQLearning(Mind, Callback)` class: the Q-table
and the training bookkeeping (`self._lr`, `self._decay`, `self._gamma`,
`self._episode_count`, `self._return`, `self.running_avg`, `self.Q`). -/
structure TabularQLearning where
  nstates : ℕ
  nactions : ℕ
  lr : ℝ
  decay : ℝ
  gamma : ℝ
  episodeCount : ℕ
  ret : ℝ
  running_avg : List ℝ
  Q : ℕ → ℕ → ℝ

/-- `__init__(self, nstates, nactions, learning_rate, decay_steps,
discount_factor)`: stores the hyperparameters, sets `_episode_count = 1`,
`_return = 0`, `running_avg = [0]`, and zero-initialises the Q-table. -/
noncomputable def TabularQLearning.init (nstates nactions : ℕ)
    (learning_rate decay_steps discount_factor : ℝ) : TabularQLearning :=
  { nstates := nstates
    nactions := nactions
    lr := learning_rate
    decay := decay_steps
    gamma := discount_factor
    episodeCount := 1
    ret := 0
    running_avg := [0]
    Q := fun _ _ => 0 }

/-- `plan(self, state, train_mode, debug_mode)`: computes
`random_noise = np.random.randn(self.Q.shape[1]) * (1. / self._episode_count)`
and returns `self.Q[state] + random_noise`.  The raw standard-normal draw
is the explicit input `z` (one component per action index); the method
reads `self` and writes nothing, so the state it leaves behind is `self`
itself, returned as the second component. -/
noncomputable def TabularQLearning.plan (L : TabularQLearning) (state : ℕ)
    (z : ℕ → ℝ) : (ℕ → ℝ) × TabularQLearning :=
  (fun a => L.Q state a + z a * (1 / (L.episodeCount : ℝ)), L)

/-- `on_episode_start(self, episode, train_mode)`: `self._return = 0`. -/
noncomputable def TabularQLearning.on_episode_start (L : TabularQLearning) :
    TabularQLearning :=
  { L with ret := 0 }

/-- The exponentially decaying learning rate computed inside
`on_step_taken`: `LR = pow(self._lr, self._episode_count / self._decay)`
(Python 3 true division, so the exponent is the real `e / d`). -/
noncomputable def effLR (L : TabularQLearning) : ℝ :=
  L.lr ^ ((L.episodeCount : ℝ) / L.decay)

/-- Maximum of the Q-table row of a state:
`np.max(self.Q[next_state])`, the row having one entry per action. -/
noncomputable def qRowMax (L : TabularQLearning) (s : ℕ) : ℝ :=
  listMax ((List.range L.nactions).map (L.Q s))

/-- The TD target of `on_step_taken`: `reward` if the transition is
terminal, else `reward + self._gamma * np.max(self.Q[next_state])`. -/
noncomputable def tdTarget (L : TabularQLearning) (t : Transition) : ℝ :=
  if t.is_terminal then t.reward
  else t.reward + L.gamma * qRowMax L t.next_state

/-- The update written into one Q-table cell:
`Q[s, a] += LR * (target - Q[s, a])`. -/
noncomputable def qUpdate (q LR target : ℝ) : ℝ :=
  q + LR * (target - q)

/-- `on_step_taken(self, step, transition, info)`: adds the reward to the
running return, computes the decayed learning rate, forms the TD target,
updates the single cell `Q[transition.state, transition.action]`, and
increments `_episode_count` when the transition is terminal. -/
noncomputable def TabularQLearning.on_step_taken (L : TabularQLearning)
    (t : Transition) : TabularQLearning :=
  { L with
    ret := L.ret + t.reward
    Q := fun s a =>
      if s = t.state ∧ a = t.action then
        qUpdate (L.Q s a) (effLR L) (tdTarget L t)
      else L.Q s a
    episodeCount := if t.is_terminal then L.episodeCount + 1 else L.episodeCount }

/-- `on_episode_end(self, episode, train_mode)`: appends
`0.01 * self._return + 0.99 * self.running_avg[-1]` to `running_avg`
(`[-1]` is the last element; the list starts as `[0]` and only grows, so
it is never empty — the empty case defaults to `0`). -/
noncomputable def TabularQLearning.on_episode_end (L : TabularQLearning) :
    TabularQLearning :=
  { L with running_avg :=
      L.running_avg ++ [0.01 * L.ret + 0.99 * (L.running_avg.getLast?.getD 0)] }

/-- The finite MDP the car-rental notebook works on: the number of states
(the `(n1, n2)` pairs flattened to one index), the number of actions, the
fixed enumeration order `mdp.states_iter()`, the legal actions
`mdp.actions_in_state` of each state, and the precomputed dynamics tensor
`T[s, a, s'] -> (probability, reward)`. -/
structure MDP where
  ns : ℕ
  na : ℕ
  states : List (Fin ns)
  legal : Fin ns → List (Fin na)
  T : Fin ns → Fin na → Fin ns → ℚ × ℚ

/-- Pointwise write into a table, the model of the in-place numpy
assignments `V[n1, n2] = ...` and `pi[n1, n2] = ...`. -/
def setF {n : ℕ} {β : Type} (f : Fin n → β) (s : Fin n) (b : β) : Fin n → β :=
  fun x => if x = s then b else f x

/-- Modelled from the spec: the body of `q_value(n1, n2, action, gamma)` is
an exercise blank (`p, r = T[...]; q += ...`); the spec's sub-contract is
the sum over all next states of `P(s' | s, a) * (R(s, a, s') + γ * V(s'))`,
accumulated over `mdp.states_iter()` starting from `q = 0`. -/
def q_value (M : MDP) (V : Fin M.ns → ℚ) (s : Fin M.ns) (a : Fin M.na)
    (γ : ℚ) : ℚ :=
  M.states.foldl (fun q s' => q + (M.T s a s').1 * ((M.T s a s').2 + γ * V s')) 0

/-- Modelled from the spec: one full sweep of `policy_evaluation`'s inner
`for n1, n2 in mdp.states_iter()` loop, whose body is an exercise blank
(`... = q_value(..., gamma=gamma)`); the spec says each state's value is
reassigned in place to `q_value(s, π(s), γ)` in enumeration order, so a
state updated earlier in the sweep is already visible to later states
(Gauss–Seidel style). -/
def sweep (M : MDP) (π : Fin M.ns → Fin M.na) (γ : ℚ)
    (V : Fin M.ns → ℚ) : Fin M.ns → ℚ :=
  M.states.foldl (fun V' s => setF V' s (q_value M V' s (π s) γ)) V

/-- The value table after `n` sweeps of the `while True` loop of
`policy_evaluation`, starting from the table `V0`. -/
def evalSeq (M : MDP) (π : Fin M.ns → Fin M.na) (γ : ℚ)
    (V0 : Fin M.ns → ℚ) : ℕ → (Fin M.ns → ℚ)
  | 0 => V0
  | n + 1 => sweep M π γ (evalSeq M π γ V0 n)

/-- `max_diff = np.max(np.abs(V_old - V))`: the largest absolute change of
any state's value between the pre-sweep snapshot and the swept table. -/
def maxDiff (M : MDP) (Vold Vnew : Fin M.ns → ℚ) : ℚ :=
  listMax (M.states.map fun s => |Vold s - Vnew s|)

/-- The early-stopping test of sweep number `n` (0-indexed):
`max_diff < theta` for the snapshot taken before sweep `n + 1`. -/
def evalStop (M : MDP) (π : Fin M.ns → Fin M.na) (γ θ : ℚ)
    (V0 : Fin M.ns → ℚ) (n : ℕ) : Prop :=
  maxDiff M (evalSeq M π γ V0 n) (evalSeq M π γ V0 (n + 1)) < θ

instance (M : MDP) (π : Fin M.ns → Fin M.na) (γ θ : ℚ) (V0 : Fin M.ns → ℚ)
    (n : ℕ) : Decidable (evalStop M π γ θ V0 n) :=
  inferInstanceAs (Decidable (maxDiff M _ _ < θ))

/-- `policy_evaluation(gamma, theta)`: the `while True` loop sweeps the
value table in place and breaks as soon as `max_diff < theta`, printing
`"Policy evaluation finished in {} steps".format(i + 1)`.  The loop has no
iteration cap, so the embedding takes the convergence hypothesis `h` and
stops after the first sweep whose `max_diff` is below `theta`.  The result
triple is (the global `V` the loop leaves behind, the step count `i + 1`
the function prints, the Python return value — `none`, because the body
has no `return` statement). -/
def policy_evaluation (M : MDP) (π : Fin M.ns → Fin M.na) (γ θ : ℚ)
    (V0 : Fin M.ns → ℚ) (h : ∃ n, evalStop M π γ θ V0 n) :
    (Fin M.ns → ℚ) × ℕ × Option ℕ :=
  (evalSeq M π γ V0 (Nat.find h + 1), Nat.find h + 1, none)

/-- Modelled from the spec: the selection inside `policy_improvement`'s
exercise blank `best_a = ...[np.argmax(...)]` — the spec adopts
`actions[np.argmax(q_values)]`, `np.argmax` taking the first maximum in
enumeration order.  Indexing an empty `actions` list raises in Python and
is `none` here. -/
def bestAction (M : MDP) (γ : ℚ) (V : Fin M.ns → ℚ) (s : Fin M.ns) :
    Option (Fin M.na) :=
  (M.legal s).get? (argmaxFirst ((M.legal s).map fun a => q_value M V s a γ))

/-- `policy_improvement(gamma)`: for each state in enumeration order, pick
the greedy action among the legal ones; if it differs from the current
policy's action, write it into the policy table and set `changed = True`.
The comparison / write inside the exercise blank is modelled from the
spec.  Returns the final policy table and the `changed` flag. -/
def policy_improvement (M : MDP) (γ : ℚ) (V : Fin M.ns → ℚ)
    (π : Fin M.ns → Fin M.na) : Option ((Fin M.ns → Fin M.na) × Bool) :=
  M.states.foldlM
    (fun p s =>
      (bestAction M γ V s).map fun b =>
        if p.1 s = b then p else (setF p.1 s b, true))
    (π, false)

/-- `policy_iteration(gamma, theta)`: the `while True` loop runs
`policy_evaluation(gamma=gamma, theta=theta)` and then
`changed = policy_improvement(gamma=gamma)` (which functions the two
exercise blanks call is modelled from the spec), breaking when
`changed` is false.  The loop has no iteration cap, so it is embedded as
a big-step relation: `piterSteps M γ θ (V, π) k (V', π')` holds when the
loop, started on the global tables `(V, π)`, terminates after exactly `k`
passes leaving the tables `(V', π')`.  Each pass needs its inner
evaluation to converge (the hypothesis `h`). -/
inductive piterSteps (M : MDP) (γ θ : ℚ) :
    ((Fin M.ns → ℚ) × (Fin M.ns → Fin M.na)) → ℕ →
    ((Fin M.ns → ℚ) × (Fin M.ns → Fin M.na)) → Prop where
  | done (V : Fin M.ns → ℚ) (π : Fin M.ns → Fin M.na)
      (h : ∃ n, evalStop M π γ θ V n) (π' : Fin M.ns → Fin M.na)
      (himp : policy_improvement M γ (evalSeq M π γ V (Nat.find h + 1)) π
        = some (π', false)) :
      piterSteps M γ θ (V, π) 1 (evalSeq M π γ V (Nat.find h + 1), π')
  | step (V : Fin M.ns → ℚ) (π : Fin M.ns → Fin M.na)
      (h : ∃ n, evalStop M π γ θ V n) (π' : Fin M.ns → Fin M.na) (k : ℕ)
      (c : (Fin M.ns → ℚ) × (Fin M.ns → Fin M.na))
      (himp : policy_improvement M γ (evalSeq M π γ V (Nat.find h + 1)) π
        = some (π', true))
      (hrest : piterSteps M γ θ (evalSeq M π γ V (Nat.find h + 1), π') k c) :
      piterSteps M γ θ (V, π) (k + 1) c

/-- A call of `policy_iteration` on the given tables terminates. -/
def piterTerminates (M : MDP) (γ θ : ℚ)
    (c : (Fin M.ns → ℚ) × (Fin M.ns → Fin M.na)) : Prop :=
  ∃ k c', piterSteps M γ θ c k c'

/-- A one-state, one-action MDP whose single transition has probability 1
and reward 0: with any discount, every sweep leaves `V = 0`, so policy
evaluation converges after its first sweep. -/
def Mconv : MDP :=
  { ns := 1, na := 1, states := [0], legal := fun _ => [0],
    T := fun _ _ _ => (1, 0) }

def πconv : Fin Mconv.ns → Fin Mconv.na := fun _ => ⟨0, by decide⟩

def Vconv : Fin Mconv.ns → ℚ := fun _ => 0

/-- A one-state, one-action MDP whose single transition has probability 1
and reward 1: with the degenerate discount `γ = 1`, every sweep adds 1 to
the state's value, so `max_diff` is 1 after every sweep and policy
evaluation with `θ = 1` never stops. -/
def Mdiv : MDP :=
  { ns := 1, na := 1, states := [0], legal := fun _ => [0],
    T := fun _ _ _ => (1, 1) }

def πdiv : Fin Mdiv.ns → Fin Mdiv.na := fun _ => ⟨0, by decide⟩

def Vdiv : Fin Mdiv.ns → ℚ := fun _ => 0

/-- The single state of `Mconv` and `Mdiv`. -/
def sconv : Fin Mconv.ns := ⟨0, by decide⟩

/-- The single state of `Mdiv`. -/
def sdiv : Fin Mdiv.ns := ⟨0, by decide⟩

/-- A concrete learner for exercising the Q-learning theorems: the
hyperparameters of the notebook's training cell (`lr = 0.75`,
`decay = 400`, `gamma = 0.95`) on a two-state, two-action table. -/
noncomputable def Lw : TabularQLearning :=
  TabularQLearning.init 2 2 (3 / 4) 400 (19 / 20)

/-- A concrete non-terminal transition for exercising the theorems. -/
noncomputable def trw : Transition :=
  { state := 0, action := 1, reward := 1, next_state := 1, is_terminal := false }

theorem le_listMax {α : Type} [LinearOrder α] [Zero α] :
    ∀ (l : List α) (x : α), x ∈ l → x ≤ listMax l
  | [_], x, hx => by
      simp only [List.mem_singleton] at hx
      simp [listMax, hx]
  | a :: b :: bs, x, hx => by
      simp only [listMax]
      rcases List.mem_cons.mp hx with h | h
      · exact le_max_of_le_left (le_of_eq h)
      · exact le_max_of_le_right (le_listMax (b :: bs) x h)

theorem listMax_mem {α : Type} [LinearOrder α] [Zero α] :
    ∀ (l : List α), l ≠ [] → listMax l ∈ l
  | [], h => absurd rfl h
  | [x], _ => by simp [listMax]
  | a :: b :: bs, _ => by
      simp only [listMax]
      rcases max_cases a (listMax (b :: bs)) with ⟨h, _⟩ | ⟨h, _⟩
      · rw [h]; exact List.mem_cons_self a (b :: bs)
      · rw [h]; exact List.mem_cons_of_mem a (listMax_mem (b :: bs) (by simp))

theorem argmaxFirst_lt_length {α : Type} [LinearOrder α] [Zero α] :
    ∀ (l : List α), l ≠ [] → argmaxFirst l < l.length
  | [], h => absurd rfl h
  | x :: xs, _ => by
      by_cases hc : listMax (x :: xs) ≤ x
      · simp [argmaxFirst, hc]
      · rcases xs with _ | ⟨y, ys⟩
        · exact absurd (by simp [listMax]) hc
        · have := argmaxFirst_lt_length (y :: ys) (by simp)
          simpa [argmaxFirst, hc] using Nat.succ_lt_succ this

theorem get_argmaxFirst {α : Type} [LinearOrder α] [Zero α] :
    ∀ (l : List α) (hlt : argmaxFirst l < l.length),
      l.get ⟨argmaxFirst l, hlt⟩ = listMax l
  | [], hlt => by simp [argmaxFirst] at hlt
  | x :: xs, hlt => by
      by_cases hc : listMax (x :: xs) ≤ x
      · have h0 : argmaxFirst (x :: xs) = 0 := by simp [argmaxFirst, hc]
        have hx : x ≤ listMax (x :: xs) :=
          le_listMax (x :: xs) x (List.mem_cons_self x xs)
        simp only [h0, List.get]
        exact le_antisymm hx hc
      · rcases xs with _ | ⟨y, ys⟩
        · exact absurd (by simp [listMax]) hc
        · have hM : ¬ listMax (y :: ys) ≤ x := by
            intro h
            exact hc (by simp [listMax, max_le_iff, h])
          have hmax : listMax (x :: y :: ys) = listMax (y :: ys) := by
            simp only [listMax]
            exact max_eq_right (le_of_lt (lt_of_not_le hM))
          have hsucc : argmaxFirst (x :: y :: ys) = argmaxFirst (y :: ys) + 1 := by
            simp [argmaxFirst, hc]
          have hlt' : argmaxFirst (y :: ys) < (y :: ys).length := by
            have := hlt
            rw [hsucc] at this
            simpa using Nat.lt_of_succ_lt_succ this
          have hget : (x :: y :: ys).get ⟨argmaxFirst (x :: y :: ys), hlt⟩
              = (y :: ys).get ⟨argmaxFirst (y :: ys), hlt'⟩ := by
            simp only [hsucc]
            rfl
          rw [hget, hmax]
          exact get_argmaxFirst (y :: ys) hlt'

theorem get_lt_listMax_of_lt_argmaxFirst {α : Type} [LinearOrder α] [Zero α] :
    ∀ (l : List α) (j : ℕ) (hj : j < l.length), j < argmaxFirst l →
      l.get ⟨j, hj⟩ < listMax l
  | [], j, hj, _ => by simp at hj
  | x :: xs, j, hj, hja => by
      by_cases hc : listMax (x :: xs) ≤ x
      · rw [show argmaxFirst (x :: xs) = 0 from by simp [argmaxFirst, hc]] at hja
        exact absurd hja (Nat.not_lt_zero j)
      · rcases xs with _ | ⟨y, ys⟩
        · exact absurd (by simp [listMax]) hc
        · have hM : ¬ listMax (y :: ys) ≤ x := by
            intro h
            exact hc (by simp [listMax, max_le_iff, h])
          have hxM : x < listMax (y :: ys) := lt_of_not_le hM
          have hmax : listMax (x :: y :: ys) = listMax (y :: ys) := by
            simp only [listMax]
            exact max_eq_right (le_of_lt hxM)
          have hsucc : argmaxFirst (x :: y :: ys) = argmaxFirst (y :: ys) + 1 := by
            simp [argmaxFirst, hc]
          rw [hmax]
          rcases j with _ | j'
          · simpa using hxM
          · have hj' : j' < (y :: ys).length := by simpa using Nat.lt_of_succ_lt_succ hj
            have hja' : j' < argmaxFirst (y :: ys) := by
              rw [hsucc] at hja
              exact Nat.lt_of_succ_lt_succ hja
            have hget : (x :: y :: ys).get ⟨j' + 1, hj⟩ = (y :: ys).get ⟨j', hj'⟩ := rfl
            rw [hget]
            exact get_lt_listMax_of_lt_argmaxFirst (y :: ys) j' hj' hja'

/-- Claim C1: `on_step_taken` on a transition `(state, action, reward,
next_state, is_terminal)` replaces `Q[state, action]` by
`Q[state, action] + α * (target - Q[state, action])` with
`α = α0 ^ (e / d)` and `target = reward` when terminal, else
`reward + γ * max_a Q[next_state, a]` — `qRowMax` being the greatest value
the row takes over the action indices. -/
theorem on_step_taken_update_rule (L : TabularQLearning) (t : Transition)
    (h : 0 < L.nactions) :
    (L.on_step_taken t).Q t.state t.action
      = L.Q t.state t.action + effLR L * (tdTarget L t - L.Q t.state t.action) ∧
    effLR L = L.lr ^ ((L.episodeCount : ℝ) / L.decay) ∧
    (t.is_terminal = true → tdTarget L t = t.reward) ∧
    (t.is_terminal = false →
      tdTarget L t = t.reward + L.gamma * qRowMax L t.next_state) ∧
    IsGreatest {x : ℝ | ∃ a, a < L.nactions ∧ x = L.Q t.next_state a}
      (qRowMax L t.next_state) := by
  refine ⟨?_, rfl, ?_, ?_, ?_, ?_⟩
  · simp [TabularQLearning.on_step_taken, qUpdate]
  · intro ht; simp [tdTarget, ht]
  · intro ht; simp [tdTarget, ht]
  · have hne : (List.range L.nactions).map (L.Q t.next_state) ≠ [] := by
      simp only [ne_eq, List.map_eq_nil_iff, List.range_eq_nil]
      omega
    have hmem := listMax_mem _ hne
    rw [List.mem_map] at hmem
    obtain ⟨a, ha, hfa⟩ := hmem
    exact ⟨a, List.mem_range.mp ha, hfa.symm⟩
  · rintro x ⟨a, ha, rfl⟩
    exact le_listMax _ _ (List.mem_map_of_mem _ (List.mem_range.mpr ha))

theorem on_step_taken_update_rule_witness :
    (Lw.on_step_taken trw).Q trw.state trw.action
      = Lw.Q trw.state trw.action
        + effLR Lw * (tdTarget Lw trw - Lw.Q trw.state trw.action) ∧
    effLR Lw = Lw.lr ^ ((Lw.episodeCount : ℝ) / Lw.decay) ∧
    (trw.is_terminal = true → tdTarget Lw trw = trw.reward) ∧
    (trw.is_terminal = false →
      tdTarget Lw trw = trw.reward + Lw.gamma * qRowMax Lw trw.next_state) ∧
    IsGreatest {x : ℝ | ∃ a, a < Lw.nactions ∧ x = Lw.Q trw.next_state a}
      (qRowMax Lw trw.next_state) :=
  on_step_taken_update_rule Lw trw (by decide)

/-- Claim C6: the episode counter is 1 right after construction, and each
`on_step_taken` call increments it exactly when the transition is
terminal. -/
theorem episode_counter_dynamics :
    (∀ (nstates nactions : ℕ) (lr d γ : ℝ),
      (TabularQLearning.init nstates nactions lr d γ).episodeCount = 1) ∧
    (∀ (L : TabularQLearning) (t : Transition),
      (L.on_step_taken t).episodeCount
        = if t.is_terminal then L.episodeCount + 1 else L.episodeCount) :=
  ⟨fun _ _ _ _ _ => rfl, fun _ _ => rfl⟩

/-- Claim C7: `plan` returns the whole vector of action scores
`Q[state, ·] + noise`, the noise being the per-action raw draw `z` scaled
by `1 / e`; it exposes the scores and picks no action itself. -/
theorem plan_returns_scores :
    ∀ (L : TabularQLearning) (s : ℕ) (z : ℕ → ℝ) (a : ℕ),
      (L.plan s z).1 a = L.Q s a + z a * (1 / (L.episodeCount : ℝ)) :=
  fun _ _ _ _ => rfl

/-- Claim C8: `on_step_taken` modifies at most the one Q-table entry
`Q[state, action]`: every other cell keeps its value. -/
theorem on_step_taken_frame (L : TabularQLearning) (t : Transition)
    (s a : ℕ) (h : (s, a) ≠ (t.state, t.action)) :
    (L.on_step_taken t).Q s a = L.Q s a := by
  have hna : ¬(s = t.state ∧ a = t.action) := by
    rintro ⟨h1, h2⟩
    exact h (by rw [h1, h2])
  simp [TabularQLearning.on_step_taken, hna]

theorem on_step_taken_frame_witness :
    (Lw.on_step_taken trw).Q 1 1 = Lw.Q 1 1 :=
  on_step_taken_frame Lw trw 1 1 (by decide)

/-- Claim C9: the cell update of `on_step_taken` writes
`(1 - α) * Q[state, action] + α * target`; for any `α ∈ [0, 1]` the
updated value lies between the old entry and the TD target, and when the
target equals the old entry the whole Q-table is unchanged. -/
theorem q_update_algebra (L : TabularQLearning) (t : Transition) (α : ℝ)
    (h0 : 0 ≤ α) (h1 : α ≤ 1) :
    (L.on_step_taken t).Q t.state t.action
      = (1 - effLR L) * L.Q t.state t.action + effLR L * tdTarget L t ∧
    min (L.Q t.state t.action) (tdTarget L t)
      ≤ qUpdate (L.Q t.state t.action) α (tdTarget L t) ∧
    qUpdate (L.Q t.state t.action) α (tdTarget L t)
      ≤ max (L.Q t.state t.action) (tdTarget L t) ∧
    (tdTarget L t = L.Q t.state t.action → (L.on_step_taken t).Q = L.Q) := by
  refine ⟨?_, ?_, ?_, ?_⟩
  · simp [TabularQLearning.on_step_taken, qUpdate]
    ring
  · rcases le_total (L.Q t.state t.action) (tdTarget L t) with hle | hle
    · rw [min_eq_left hle]
      simp only [qUpdate]
      nlinarith [mul_nonneg h0 (sub_nonneg.mpr hle)]
    · rw [min_eq_right hle]
      simp only [qUpdate]
      nlinarith [mul_nonneg (sub_nonneg.mpr h1) (sub_nonneg.mpr hle)]
  · rcases le_total (L.Q t.state t.action) (tdTarget L t) with hle | hle
    · rw [max_eq_right hle]
      simp only [qUpdate]
      nlinarith [mul_nonneg (sub_nonneg.mpr h1) (sub_nonneg.mpr hle)]
    · rw [max_eq_left hle]
      simp only [qUpdate]
      nlinarith [mul_nonneg h0 (sub_nonneg.mpr hle)]
  · intro hfix
    funext s a
    simp only [TabularQLearning.on_step_taken, qUpdate]
    by_cases hsa : s = t.state ∧ a = t.action
    · rw [if_pos hsa]
      obtain ⟨hs, ha⟩ := hsa
      subst hs; subst ha
      rw [hfix]
      ring
    · rw [if_neg hsa]

theorem q_update_algebra_witness :
    (Lw.on_step_taken trw).Q trw.state trw.action
      = (1 - effLR Lw) * Lw.Q trw.state trw.action + effLR Lw * tdTarget Lw trw ∧
    min (Lw.Q trw.state trw.action) (tdTarget Lw trw)
      ≤ qUpdate (Lw.Q trw.state trw.action) (1 / 2) (tdTarget Lw trw) ∧
    qUpdate (Lw.Q trw.state trw.action) (1 / 2) (tdTarget Lw trw)
      ≤ max (Lw.Q trw.state trw.action) (tdTarget Lw trw) ∧
    (tdTarget Lw trw = Lw.Q trw.state trw.action →
      (Lw.on_step_taken trw).Q = Lw.Q) :=
  q_update_algebra Lw trw (1 / 2) (by norm_num) (by norm_num)

/-- Claim C10: `plan` never modifies the learner's state — the Q-table,
episode counter, accumulated return and running-average list are all
unchanged, the state after the call being the state before it. -/
theorem plan_frame :
    ∀ (L : TabularQLearning) (s : ℕ) (z : ℕ → ℝ),
      (L.plan s z).2.Q = L.Q ∧
      (L.plan s z).2.episodeCount = L.episodeCount ∧
      (L.plan s z).2.ret = L.ret ∧
      (L.plan s z).2.running_avg = L.running_avg ∧
      (L.plan s z).2 = L :=
  fun _ _ _ => ⟨rfl, rfl, rfl, rfl, rfl⟩

theorem maxDiff_le (M : MDP) (Vold Vnew : Fin M.ns → ℚ) (s : Fin M.ns)
    (hs : s ∈ M.states) : |Vold s - Vnew s| ≤ maxDiff M Vold Vnew :=
  le_listMax _ _ (List.mem_map_of_mem _ hs)

theorem evalStop0_Mconv : evalStop Mconv πconv 0 1 Vconv 0 := by
  have hst : Mconv.states = [sconv] := rfl
  have hT : ∀ s a s', Mconv.T s a s' = (1, 0) := fun _ _ _ => rfl
  have hV : ∀ s, Vconv s = 0 := fun _ => rfl
  norm_num [evalStop, maxDiff, evalSeq, sweep, setF, q_value, listMax, hst,
    hT, hV]

theorem evalConv_Mconv : ∃ n, evalStop Mconv πconv 0 1 Vconv n :=
  ⟨0, evalStop0_Mconv⟩

/-- Claim C2: `policy_evaluation` repeats full sweeps; after each sweep it
compares the swept table against the pre-sweep snapshot through
`max_diff = max_s |V_new(s) - V_old(s)|` and stops exactly at the first
sweep with `max_diff < θ`; no hard iteration cap bounds the number of
sweeps — whenever the test has not yet succeeded before sweep `N`, the
loop runs longer than `N` sweeps. -/
theorem policy_evaluation_loop (M : MDP) (π : Fin M.ns → Fin M.na) (γ θ : ℚ)
    (V0 : Fin M.ns → ℚ) (h : ∃ n, evalStop M π γ θ V0 n)
    (k : ℕ) (hk : k = Nat.find h + 1) :
    (policy_evaluation M π γ θ V0 h).1 = evalSeq M π γ V0 k ∧
    (policy_evaluation M π γ θ V0 h).2.1 = k ∧
    (∀ n, evalSeq M π γ V0 (n + 1) = sweep M π γ (evalSeq M π γ V0 n)) ∧
    evalStop M π γ θ V0 (k - 1) ∧
    (∀ m, m + 1 < k → ¬ evalStop M π γ θ V0 m) ∧
    (∀ s, s ∈ M.states →
      |evalSeq M π γ V0 (k - 1) s - evalSeq M π γ V0 k s| < θ) ∧
    (∀ N, (∀ m, m < N → ¬ evalStop M π γ θ V0 m) → N < k) := by
  subst hk
  refine ⟨rfl, rfl, fun n => rfl, ?_, ?_, ?_, ?_⟩
  · simpa using Nat.find_spec h
  · intro m hm
    exact Nat.find_min h (by omega)
  · intro s hs
    have hstop : evalStop M π γ θ V0 (Nat.find h) := Nat.find_spec h
    have hle := maxDiff_le M (evalSeq M π γ V0 (Nat.find h))
      (evalSeq M π γ V0 (Nat.find h + 1)) s hs
    simp only [Nat.add_sub_cancel]
    exact lt_of_le_of_lt hle hstop
  · intro N hN
    have hfind : N ≤ Nat.find h := (Nat.le_find_iff h N).mpr fun m hm => hN m hm
    omega

theorem policy_evaluation_loop_witness :
    (policy_evaluation Mconv πconv 0 1 Vconv evalConv_Mconv).1
      = evalSeq Mconv πconv 0 Vconv 1 ∧
    (policy_evaluation Mconv πconv 0 1 Vconv evalConv_Mconv).2.1 = 1 ∧
    (∀ n, evalSeq Mconv πconv 0 Vconv (n + 1)
      = sweep Mconv πconv 0 (evalSeq Mconv πconv 0 Vconv n)) ∧
    evalStop Mconv πconv 0 1 Vconv (1 - 1) ∧
    (∀ m, m + 1 < 1 → ¬ evalStop Mconv πconv 0 1 Vconv m) ∧
    (∀ s, s ∈ Mconv.states →
      |evalSeq Mconv πconv 0 Vconv (1 - 1) s - evalSeq Mconv πconv 0 Vconv 1 s|
        < 1) ∧
    (∀ N, (∀ m, m < N → ¬ evalStop Mconv πconv 0 1 Vconv m) → N < 1) :=
  policy_evaluation_loop Mconv πconv 0 1 Vconv evalConv_Mconv 1
    (by rw [(Nat.find_eq_zero evalConv_Mconv).mpr evalStop0_Mconv])

/-- Claim C5 (amended): a terminating `policy_evaluation` call leaves the
converged table in the in-place value table and reports the count of
sweeps performed (the first count whose `max_diff` is below `θ`) by
printing it; the function body has no `return` statement, so the count is
printed, not returned — the Python return value is `None`. -/
theorem policy_evaluation_outputs (M : MDP) (π : Fin M.ns → Fin M.na)
    (γ θ : ℚ) (V0 : Fin M.ns → ℚ) (h : ∃ n, evalStop M π γ θ V0 n) :
    (policy_evaluation M π γ θ V0 h).1 = evalSeq M π γ V0 (Nat.find h + 1) ∧
    (policy_evaluation M π γ θ V0 h).2.1 = Nat.find h + 1 ∧
    evalStop M π γ θ V0 (Nat.find h) ∧
    (∀ m, m < Nat.find h → ¬ evalStop M π γ θ V0 m) ∧
    (policy_evaluation M π γ θ V0 h).2.2 = none :=
  ⟨rfl, rfl, Nat.find_spec h, fun _ hm => Nat.find_min h hm, rfl⟩

theorem policy_evaluation_outputs_witness :
    (policy_evaluation Mconv πconv 0 1 Vconv evalConv_Mconv).1
      = evalSeq Mconv πconv 0 Vconv (Nat.find evalConv_Mconv + 1) ∧
    (policy_evaluation Mconv πconv 0 1 Vconv evalConv_Mconv).2.1
      = Nat.find evalConv_Mconv + 1 ∧
    evalStop Mconv πconv 0 1 Vconv (Nat.find evalConv_Mconv) ∧
    (∀ m, m < Nat.find evalConv_Mconv → ¬ evalStop Mconv πconv 0 1 Vconv m) ∧
    (policy_evaluation Mconv πconv 0 1 Vconv evalConv_Mconv).2.2 = none :=
  policy_evaluation_outputs Mconv πconv 0 1 Vconv evalConv_Mconv

theorem policy_evaluation_count_not_returned :
    (policy_evaluation Mconv πconv 0 1 Vconv evalConv_Mconv).2.2 = none ∧
    (policy_evaluation Mconv πconv 0 1 Vconv evalConv_Mconv).2.2
      ≠ some ((policy_evaluation Mconv πconv 0 1 Vconv evalConv_Mconv).2.1) :=
  ⟨rfl, by simp [policy_evaluation]⟩

/-- Claim C3: for a state with a nonempty legal-action list,
`policy_improvement`'s selection `actions[np.argmax(q_values)]` picks a
legal action of maximal q-value, and among equal maxima the one at the
lowest index in the enumeration order — every earlier action has a
strictly smaller q-value.  The selection is a pure function of its
inputs, hence identical on every run. -/
theorem policy_improvement_picks_first_argmax (M : MDP) (γ : ℚ)
    (V : Fin M.ns → ℚ) (s : Fin M.ns) (h : M.legal s ≠ []) :
    ∃ i, ∃ hi : i < (M.legal s).length,
      bestAction M γ V s = some ((M.legal s).get ⟨i, hi⟩) ∧
      (M.legal s).get ⟨i, hi⟩ ∈ M.legal s ∧
      (∀ a, a ∈ M.legal s →
        q_value M V s a γ ≤ q_value M V s ((M.legal s).get ⟨i, hi⟩) γ) ∧
      (∀ j, ∀ hj : j < (M.legal s).length, j < i →
        q_value M V s ((M.legal s).get ⟨j, hj⟩) γ
          < q_value M V s ((M.legal s).get ⟨i, hi⟩) γ) := by
  have hqs : (M.legal s).map (fun a => q_value M V s a γ) ≠ [] := by
    simpa [List.map_eq_nil_iff] using h
  have hlen : ((M.legal s).map (fun a => q_value M V s a γ)).length
      = (M.legal s).length := List.length_map _ _
  have hi' : argmaxFirst ((M.legal s).map fun a => q_value M V s a γ)
      < ((M.legal s).map fun a => q_value M V s a γ).length :=
    argmaxFirst_lt_length _ hqs
  have hi : argmaxFirst ((M.legal s).map fun a => q_value M V s a γ)
      < (M.legal s).length := hlen ▸ hi'
  have hget : ∀ (j : ℕ) (hj1 : j < ((M.legal s).map
      fun a => q_value M V s a γ).length) (hj2 : j < (M.legal s).length),
      ((M.legal s).map fun a => q_value M V s a γ).get ⟨j, hj1⟩
        = q_value M V s ((M.legal s).get ⟨j, hj2⟩) γ := by
    intro j hj1 hj2
    simp [List.get_eq_getElem, List.getElem_map]
  have hmax := get_argmaxFirst _ hi'
  refine ⟨argmaxFirst ((M.legal s).map fun a => q_value M V s a γ), hi,
    ?_, List.get_mem _ _ _, ?_, ?_⟩
  · show (M.legal s).get? _ = _
    exact List.get?_eq_get hi
  · intro a ha
    have hmem : q_value M V s a γ
        ∈ (M.legal s).map fun a => q_value M V s a γ :=
      List.mem_map_of_mem _ ha
    have := le_listMax _ _ hmem
    rw [← hmax, hget _ hi' hi] at this
    exact this
  · intro j hj hji
    have hj1 : j < ((M.legal s).map fun a => q_value M V s a γ).length :=
      hlen ▸ hj
    have := get_lt_listMax_of_lt_argmaxFirst _ j hj1 hji
    rw [← hmax, hget _ hi' hi, hget _ hj1 hj] at this
    exact this

theorem policy_improvement_picks_first_argmax_witness :
    ∃ i, ∃ hi : i < (Mconv.legal sconv).length,
      bestAction Mconv 0 Vconv sconv = some ((Mconv.legal sconv).get ⟨i, hi⟩) ∧
      (Mconv.legal sconv).get ⟨i, hi⟩ ∈ Mconv.legal sconv ∧
      (∀ a, a ∈ Mconv.legal sconv →
        q_value Mconv Vconv sconv a 0
          ≤ q_value Mconv Vconv sconv ((Mconv.legal sconv).get ⟨i, hi⟩) 0) ∧
      (∀ j, ∀ hj : j < (Mconv.legal sconv).length, j < i →
        q_value Mconv Vconv sconv ((Mconv.legal sconv).get ⟨j, hj⟩) 0
          < q_value Mconv Vconv sconv ((Mconv.legal sconv).get ⟨i, hi⟩) 0) :=
  policy_improvement_picks_first_argmax Mconv 0 Vconv sconv (by decide)

theorem evalSeq_Mdiv (n : ℕ) :
    evalSeq Mdiv πdiv 1 Vdiv n = fun _ => (n : ℚ) := by
  induction n with
  | zero =>
      funext s
      simp [evalSeq, Vdiv]
  | succ n ih =>
      funext s
      obtain ⟨sv, hsv⟩ := s
      have hsv1 : sv < 1 := hsv
      have hsv0 : sv = 0 := by omega
      subst hsv0
      have hst : Mdiv.states = [sdiv] := rfl
      have hT : ∀ s a s', Mdiv.T s a s' = (1, 1) := fun _ _ _ => rfl
      show sweep Mdiv πdiv 1 (evalSeq Mdiv πdiv 1 Vdiv n) ⟨0, hsv⟩ = ((n + 1 : ℕ) : ℚ)
      rw [ih]
      simp [sweep, hst, hT, setF, q_value, sdiv]
      ring

theorem evalStop_Mdiv_false (n : ℕ) : ¬ evalStop Mdiv πdiv 1 1 Vdiv n := by
  intro hstop
  have h1 := evalSeq_Mdiv n
  have h2 := evalSeq_Mdiv (n + 1)
  simp only [evalStop] at hstop
  rw [h1, h2] at hstop
  have hst : Mdiv.states = [sdiv] := rfl
  simp only [maxDiff, hst, List.map_cons, List.map_nil, listMax] at hstop
  push_cast at hstop
  rw [show (n : ℚ) - ((n : ℚ) + 1) = -1 from by ring] at hstop
  norm_num at hstop

theorem piter_div_Mdiv : ¬ piterTerminates Mdiv 1 1 (Vdiv, πdiv) := by
  rintro ⟨k, c, hsteps⟩
  cases hsteps with
  | done V π h π' himp =>
      obtain ⟨n, hn⟩ := h
      exact evalStop_Mdiv_false n hn
  | step V π h π' k' c' himp hrest =>
      obtain ⟨n, hn⟩ := h
      exact evalStop_Mdiv_false n hn

theorem piter_det (M : MDP) (γ θ : ℚ)
    {c c₁ : (Fin M.ns → ℚ) × (Fin M.ns → Fin M.na)} {k₁ : ℕ}
    (h₁ : piterSteps M γ θ c k₁ c₁) :
    ∀ (k₂ : ℕ) (c₂ : (Fin M.ns → ℚ) × (Fin M.ns → Fin M.na)),
      piterSteps M γ θ c k₂ c₂ → k₁ = k₂ ∧ c₁ = c₂ := by
  induction h₁ with
  | done V π h π' himp =>
      intro k₂ c₂ h₂
      cases h₂ with
      | done _ _ h2 π2' himp2 =>
          have heq := himp.symm.trans himp2
          injection heq with hpair
          have hπ : π' = π2' := congrArg Prod.fst hpair
          subst hπ
          exact ⟨rfl, rfl⟩
      | step _ _ h2 π2' k2 c2' himp2 hrest2 =>
          have heq := himp.symm.trans himp2
          injection heq with hpair
          have hb : (false : Bool) = true := congrArg Prod.snd hpair
          exact absurd hb (by simp)
  | step V π h π' k c' himp hrest ih =>
      intro k₂ c₂ h₂
      cases h₂ with
      | done _ _ h2 π2' himp2 =>
          have heq := himp.symm.trans himp2
          injection heq with hpair
          have hb : (true : Bool) = false := congrArg Prod.snd hpair
          exact absurd hb (by simp)
      | step _ _ h2 π2' k2 c2' himp2 hrest2 =>
          have heq := himp.symm.trans himp2
          injection heq with hpair
          have hπ : π' = π2' := congrArg Prod.fst hpair
          subst hπ
          obtain ⟨hk, hc⟩ := ih k2 c₂ hrest2
          exact ⟨by rw [hk], hc⟩

theorem piter_run_Mconv :
    piterSteps Mconv 0 1 (Vconv, πconv) 1
      (evalSeq Mconv πconv 0 Vconv (Nat.find evalConv_Mconv + 1), πconv) := by
  refine piterSteps.done Vconv πconv evalConv_Mconv πconv ?_
  have hst : Mconv.states = [sconv] := rfl
  have hlg : ∀ s, Mconv.legal s = [πconv s] := fun _ => rfl
  simp [policy_improvement, bestAction, hst, hlg, argmaxFirst, listMax,
    List.foldlM]

/-- Claim C4 (amended): the source's `policy_iteration` imposes no
iteration cap and reports no non-convergence condition: it
deterministically alternates `policy_evaluation` and `policy_improvement`,
terminating exactly when the improvement reports `changed == false`
(uniqueness of the pass count and final tables), a terminating run exists,
and on a degenerate configuration with `γ = 1` a call need not terminate
at all. -/
theorem policy_iteration_loop_behavior :
    (∀ (M : MDP) (γ θ : ℚ)
      (c c₁ c₂ : (Fin M.ns → ℚ) × (Fin M.ns → Fin M.na)) (k₁ k₂ : ℕ),
      piterSteps M γ θ c k₁ c₁ → piterSteps M γ θ c k₂ c₂ →
        k₁ = k₂ ∧ c₁ = c₂) ∧
    piterSteps Mconv 0 1 (Vconv, πconv) 1
      (evalSeq Mconv πconv 0 Vconv (Nat.find evalConv_Mconv + 1), πconv) ∧
    ¬ piterTerminates Mdiv 1 1 (Vdiv, πdiv) :=
  ⟨fun M γ θ _ _ c₂ _ k₂ h₁ h₂ => piter_det M γ θ h₁ k₂ c₂ h₂,
   piter_run_Mconv, piter_div_Mdiv⟩

/-- Counterexample to claim C4 as stated: on the one-state MDP `Mdiv`
with the degenerate discount `γ = 1` and `θ = 1`, no call of the
policy-iteration loop started on the zero tables terminates — the code
imposes no iteration cap and never reports non-convergence. -/
theorem policy_iteration_no_cap_cex :
    ¬ piterTerminates Mdiv 1 1 (Vdiv, πdiv) :=
  piter_div_Mdiv
